import Mathlib

/-!
Verification of the resumable chunked object-reading subsystem of the
aistore python SDK (`aistore/sdk/obj/`): the `ObjectFile` resumable
file-like reader (called ResumableObjectStream in the design document),
the `ContentIterator` chunking layer, the `ObjectReader` facade and the
`Object` request-assembly layer.

Bytes are modelled as natural numbers, byte strings as `List Nat`.
The remote transport is modelled by the object's byte content together
with an explicit failure schedule: entry `k` of the schedule tells
whether the `k`-th range-GET opened over the lifetime of a stream
raises a transient transport failure, and if so after how many chunks.
-/

/-- Concatenation of a list of byte chunks. -/
def joinAll : List (List Nat) → List Nat
  | [] => []
  | c :: cs => c ++ joinAll cs

/-- Sum of the lengths of a list of byte strings. -/
def sumLens : List (List Nat) → Nat
  | [] => 0
  | c :: cs => c.length + sumLens cs

/-- Fuel-indexed worker for `chunksFrom`; `fuel ≥ bs.length` makes it exact. -/
def chunksFromAux (cs : Nat) : Nat → List Nat → List (List Nat)
  | 0, _ => []
  | fuel + 1, bs =>
    if cs = 0 ∨ bs = [] then []
    else bs.take cs :: chunksFromAux cs fuel (bs.drop cs)

/-- Modelled from the spec: `ContentIterator`'s chunking policy
(`content_iterator.py` is not part of the provided sources).  Splits a byte
string into consecutive chunks of at most `cs` bytes; every chunk except the
last has exactly `cs` bytes, and the sequence ends when the data ends. -/
def chunksFrom (cs : Nat) (bs : List Nat) : List (List Nat) :=
  chunksFromAux cs bs.length bs

/-- Modelled from the spec: `ContentIterator.iter_from_position` opens one
range-GET at `start` and serves the object's bytes from that offset onward
as a lazy sequence of chunks.  Here the chunk sequence is fully computed. -/
def ContentIterator.iter_from_position (cs : Nat) (data : List Nat) (start : Nat) :
    List (List Nat) :=
  chunksFrom cs (data.drop start)

/-- A live chunk iterator (one open range-GET): the chunks it will still
serve, and — failure-schedule bookkeeping — `failAfter = some f` means the
underlying transport raises a transient failure once `f` more chunks have
been served; `none` means this GET serves its body to the end. -/
structure Iter where
  chunks : List (List Nat)
  failAfter : Option Nat

/-- Immutable configuration of one `ObjectFile` stream: the remote object's
bytes, the client-side chunk size, the `max_resume` budget, and the failure
schedule (entry `k` governs the `k`-th GET opened by this stream; missing
entries mean no failure). -/
structure OFConfig where
  data : List Nat
  chunkSize : Nat
  maxResume : Nat
  fails : List (Option Nat)

/-- Modelled from the spec: the mutable state of `ObjectFile`
(= ResumableObjectStream; `object_file.py` is not part of the provided
sources).  `position` counts bytes actually delivered to the caller,
`buffer` holds fetched-but-undelivered bytes, `iter` is the live chunk
iterator, `getLog` records the start offset of every range-GET opened so
far, `resumeCount` the resume attempts used, `closed` the terminal flag. -/
structure OFState where
  position : Nat
  buffer : List Nat
  iter : Option Iter
  getLog : List Nat
  resumeCount : Nat
  closed : Bool

/-- The state of a freshly constructed `ObjectFile` stream. -/
def OFState.init : OFState :=
  { position := 0, buffer := [], iter := none, getLog := [], resumeCount := 0
    closed := false }

/-- Errors surfaced by `ObjectFile` operations: `invalidState` models the
`ValueError` raised on operations after `close()`, `resumeExhausted` the
transport error re-raised once the resume budget is used up. -/
inductive OFError
  | invalidState
  | resumeExhausted

/-- Result of filling the buffer from one iterator until the request is
satisfied, the source ends, or a transient failure occurs. -/
inductive OnceRes
  | done (buffer : List Nat) (it : Iter)
  | broke (it : Iter)

/-- Result of the fill-with-resume loop: either a filled buffer with the
surviving iterator, or resume exhaustion (carrying the broken iterator). -/
inductive FillResult
  | ok (buffer : List Nat) (it : Iter) (log : List Nat) (rc : Nat)
  | exhausted (it : Iter) (log : List Nat) (rc : Nat)

/-- Is a read request for `need` bytes satisfied by `have` buffered bytes?
An unbounded read (`none`) is never satisfied before end-of-data. -/
def needSatisfied : Option Nat → Nat → Bool
  | some n, bl => n ≤ bl
  | none, _ => false

/-- Modelled from the spec: pull chunks from the current iterator into the
buffer until the request is satisfied, end-of-data is reached (both
`OnceRes.done`) or the transport fails while materializing the next chunk
(`OnceRes.broke`).  Failure is checked when the next chunk is demanded, so
it is observed before end-of-data. -/
def fillOnce (need : Option Nat) (buffer : List Nat) (chunks : List (List Nat))
    (fa : Option Nat) : OnceRes :=
  if needSatisfied need buffer.length then .done buffer ⟨chunks, fa⟩
  else if fa = some 0 then .broke ⟨chunks, fa⟩
  else
    match chunks with
    | [] => .done buffer ⟨[], fa⟩
    | c :: rest => fillOnce need (buffer ++ c) rest (Option.map Nat.pred fa)

/-- Open a fresh range-GET at byte offset `pos`; `idx` is the number of GETs
opened before it, used to look up the failure schedule. -/
def openIter (cfg : OFConfig) (pos : Nat) (idx : Nat) : Iter :=
  ⟨ContentIterator.iter_from_position cfg.chunkSize cfg.data pos,
   cfg.fails.getD idx none⟩

/-- Fuel-indexed worker for `resumeLoop`; fuel larger than the remaining
resume budget makes it exact (the fuel-0 fallback is never reached then). -/
def resumeLoopAux (cfg : OFConfig) (pos : Nat) (need : Option Nat) :
    Nat → List Nat → Iter → List Nat → Nat → FillResult
  | 0, _, it, log, rc => .exhausted it log rc
  | fuel + 1, buffer, it, log, rc =>
    match fillOnce need buffer it.chunks it.failAfter with
    | .done buf it2 => .ok buf it2 log rc
    | .broke it2 =>
      if rc < cfg.maxResume then
        resumeLoopAux cfg pos need fuel [] (openIter cfg pos log.length)
          (log ++ [pos]) (rc + 1)
      else .exhausted it2 log rc

/-- Modelled from the spec: the STREAMING → RESUMING → STREAMING loop of
ResumableObjectStream.  Fill the buffer from the current iterator; on a
transient failure with `rc < max_resume`, discard the broken iterator and
the buffer, increment the resume count, open a new GET at `pos` (the count
of bytes already delivered to the caller) and retry; once the budget is
exhausted, propagate the failure. -/
def resumeLoop (cfg : OFConfig) (pos : Nat) (need : Option Nat) (buffer : List Nat)
    (it : Iter) (log : List Nat) (rc : Nat) : FillResult :=
  resumeLoopAux cfg pos need (cfg.maxResume + 1 - rc) buffer it log rc

/-- How many buffered bytes a request delivers: `min n |buf|` for `read(n)`,
the whole buffer for an unbounded read. -/
def deliverCount : Option Nat → List Nat → Nat
  | some n, buf => min n buf.length
  | none, buf => buf.length

/-- The delivery step of `ObjectFile.read` once an iterator is live: run the
fill-with-resume loop, then hand `deliverCount` bytes to the caller,
advancing `position` by exactly the number of bytes returned.  On resume
exhaustion the error is surfaced, the buffer is released, and no further
GET is opened. -/
def ObjectFile.readCore (cfg : OFConfig) (st : OFState) (need : Option Nat)
    (it : Iter) (log : List Nat) : Except OFError (List Nat) × OFState :=
  match resumeLoop cfg st.position need st.buffer it log st.resumeCount with
  | .ok buf it2 log2 rc2 =>
    (.ok (buf.take (deliverCount need buf)),
     { st with position := st.position + deliverCount need buf
               buffer := buf.drop (deliverCount need buf)
               iter := some it2, getLog := log2, resumeCount := rc2 })
  | .exhausted it2 log2 rc2 =>
    (.error .resumeExhausted,
     { st with buffer := [], iter := some it2, getLog := log2
               resumeCount := rc2 })

/-- Modelled from the spec: `ObjectFile.read`.  `need = none` is the
unbounded `read()`, `need = some n` is `read(n)`.  Operations on a closed
stream fail with `invalidState`; `read(0)` returns the empty byte string
without touching the iterator; the first positive read opens a GET at the
current position (offset 0 on a fresh stream). -/
def ObjectFile.read (cfg : OFConfig) (st : OFState) (need : Option Nat) :
    Except OFError (List Nat) × OFState :=
  if st.closed then (.error .invalidState, st)
  else if need = some 0 then (.ok [], st)
  else
    match st.iter with
    | some it => ObjectFile.readCore cfg st need it st.getLog
    | none =>
      ObjectFile.readCore cfg st need
        (openIter cfg st.position st.getLog.length) (st.getLog ++ [st.position])

/-- Modelled from the spec: `ObjectFile.tell` returns `position` and fails
on a closed stream. -/
def ObjectFile.tell (st : OFState) : Except OFError Nat :=
  if st.closed then .error .invalidState else .ok st.position

/-- Modelled from the spec and `test_close`: `ObjectFile.close` releases the
iterator and the buffer and marks the stream closed; closing an already
closed stream fails (close is not idempotent). -/
def ObjectFile.close (st : OFState) : Except OFError OFState :=
  if st.closed then .error .invalidState
  else .ok { st with closed := true, buffer := [], iter := none }

/-- Modelled from `test_close` / `test_initialization`: `readable()` is true
exactly while the stream is not closed. -/
def ObjectFile.readable (st : OFState) : Bool :=
  !st.closed

/-- Modelled from the spec: the stream is forward-only, `seekable()` is
always false. -/
def ObjectFile.seekable (_st : OFState) : Bool :=
  false

/-- The bytes a read call hands to the caller (none on error). -/
def resultBytes : Except OFError (List Nat) → List Nat
  | .ok bs => bs
  | .error _ => []

/-- Run a sequence of read calls left to right, collecting the byte strings
returned by each call (errors return no bytes) and the final state. -/
def runReads (cfg : OFConfig) : OFState → List (Option Nat) → List (List Nat) × OFState
  | st, [] => ([], st)
  | st, r :: rs =>
    let p := ObjectFile.read cfg st r
    let q := runReads cfg p.2 rs
    (resultBytes p.1 :: q.1, q.2)

/-- Number of chunk pulls the fill loop performs for a request of `n` bytes
starting with `bl` buffered bytes, before it is satisfied or the chunk
sequence ends. -/
def pullsNeeded (n : Nat) (bl : Nat) : List (List Nat) → Nat
  | [] => 0
  | c :: rest => if n ≤ bl then 0 else pullsNeeded n (bl + c.length) rest + 1

/-- Bytes a read request delivers when `rem` bytes of the object remain. -/
def deliverTarget : Option Nat → Nat → Nat
  | some n, rem => min n rem
  | none, rem => rem

/-- The resume count recorded in a fill-loop result. -/
def FillResult.rcOf : FillResult → Nat
  | .ok _ _ _ rc => rc
  | .exhausted _ _ rc => rc

/-- Consistency of the live iterator with the object data: the buffered
bytes followed by the bytes the iterator will still serve are exactly the
object's bytes past `position`, and (for failure-free runs) the iterator
carries no pending failure. -/
def IterGood (cfg : OFConfig) (pos : Nat) (buffer : List Nat) : Option Iter → Prop
  | some it => it.failAfter = none ∧ buffer ++ joinAll it.chunks = cfg.data.drop pos
  | none => buffer = []

/-- Invariant of reachable `ObjectFile` states in failure-free runs. -/
def Good (cfg : OFConfig) (st : OFState) : Prop :=
  st.closed = false ∧ st.resumeCount ≤ cfg.maxResume ∧
    st.position ≤ cfg.data.length ∧ IterGood cfg st.position st.buffer st.iter

/-! ### ObjectReader facade (from `object_reader.py`) -/

/-- Immutable snapshot of object metadata parsed from response headers
(`object_attributes.py` is collaborator plumbing; the snapshot is modelled
as the header map it was parsed from). -/
structure ObjectAttributes where
  headers : List (String × String)

/-- Modelled from the spec: the `ObjectClient` collaborator consumed by
`ObjectReader` (`object_client.py` is not part of the provided sources).
`headAttrs` is what its `head()` returns; `getHeaders`/`getContent` are the
headers and body of the response its `get()` returns. -/
structure ObjectClientModel where
  headAttrs : ObjectAttributes
  getHeaders : List (String × String)
  getContent : List Nat

/-- A request issued by the reader against AIS: a HEAD, or a (possibly
streaming) GET from a byte position. -/
inductive AisRequest
  | headReq
  | getReq (stream : Bool) (startPos : Nat)

/-- Mutable state of an `ObjectReader`: the `_attributes` cache (`none`
models the Python `None`; a cached snapshot is always truthy). -/
structure ObjectReaderState where
  attributesCache : Option ObjectAttributes

/-- A response from the object client: headers and content. -/
structure RespModel where
  headers : List (String × String)
  content : List Nat

/-- `ObjectReader.head`: asks the client for attributes, replaces the cache
wholesale, and returns the new snapshot.  Issues one HEAD request. -/
def ObjectReader.head (c : ObjectClientModel) (_st : ObjectReaderState) :
    ObjectAttributes × ObjectReaderState × List AisRequest :=
  (c.headAttrs, ⟨some c.headAttrs⟩, [.headReq])

/-- `ObjectReader._make_request`: performs a GET via the client and replaces
the cached attributes wholesale with a snapshot parsed from the response
headers. -/
def ObjectReader.makeRequest (c : ObjectClientModel) (_st : ObjectReaderState)
    (stream : Bool) (startPos : Nat) :
    RespModel × ObjectReaderState × List AisRequest :=
  (⟨c.getHeaders, c.getContent⟩, ⟨some ⟨c.getHeaders⟩⟩, [.getReq stream startPos])

/-- The `ObjectReader.attributes` property: returns the cached snapshot if
one is present (no request), otherwise performs `head()` and memoizes. -/
def ObjectReader.attributes (c : ObjectClientModel) (st : ObjectReaderState) :
    ObjectAttributes × ObjectReaderState × List AisRequest :=
  match st.attributesCache with
  | some a => (a, st, [])
  | none => ObjectReader.head c st

/-- `ObjectReader.read_all`: one non-streaming GET from position 0,
returning the whole body. -/
def ObjectReader.read_all (c : ObjectClientModel) (st : ObjectReaderState) :
    List Nat × ObjectReaderState × List AisRequest :=
  ((ObjectReader.makeRequest c st false 0).1.content,
   (ObjectReader.makeRequest c st false 0).2.1,
   (ObjectReader.makeRequest c st false 0).2.2)

/-- `ObjectReader.raw`: one streaming GET from position 0, returning the raw
response. -/
def ObjectReader.raw (c : ObjectClientModel) (st : ObjectReaderState) :
    RespModel × ObjectReaderState × List AisRequest :=
  ObjectReader.makeRequest c st true 0

/-! ### Object operations and the query-parameter store (from `object.py`)

Python dictionaries are heap values accessed through references; the
`.copy()` calls in `object.py` are what keeps the bucket's query-parameter
map unchanged.  The heap is modelled explicitly: a `Store` maps numeric
references to association lists, `dictCopy` allocates a fresh reference
holding a copy, and `dictSet` mutates one referenced dictionary in place. -/

/-- Insert-or-replace on an association list (Python `d[k] = v`).  Values
are `Option String` because Python code stores `None` in these maps. -/
def alistSet : List (String × Option String) → String → Option String →
    List (String × Option String)
  | [], k, v => [(k, v)]
  | (k2, v2) :: rest, k, v =>
    if k2 = k then (k, v) :: rest else (k2, v2) :: alistSet rest k v

/-- Lookup of a dictionary by reference in the heap. -/
def memGet : List (Nat × List (String × Option String)) → Nat →
    List (String × Option String)
  | [], _ => []
  | (r2, v) :: rest, r => if r2 = r then v else memGet rest r

/-- In-place update of a dictionary by reference in the heap. -/
def memSet : List (Nat × List (String × Option String)) → Nat →
    List (String × Option String) → List (Nat × List (String × Option String))
  | [], r, v => [(r, v)]
  | (r2, v2) :: rest, r, v =>
    if r2 = r then (r, v) :: rest else (r2, v2) :: memSet rest r v

/-- Heap of Python dictionaries: an allocation counter and the memory. -/
structure Store where
  next : Nat
  mem : List (Nat × List (String × Option String))

/-- Read the dictionary a reference points to. -/
def Store.get (s : Store) (r : Nat) : List (String × Option String) :=
  memGet s.mem r

/-- Overwrite the dictionary a reference points to. -/
def Store.set (s : Store) (r : Nat) (v : List (String × Option String)) : Store :=
  ⟨s.next, memSet s.mem r v⟩

/-- Allocate a fresh dictionary. -/
def Store.alloc (s : Store) (v : List (String × Option String)) : Nat × Store :=
  (s.next, ⟨s.next + 1, (s.next, v) :: s.mem⟩)

/-- Python `d.copy()`: allocate a fresh dictionary with the same entries. -/
def dictCopy (s : Store) (r : Nat) : Nat × Store :=
  s.alloc (s.get r)

/-- Python `d[k] = v` through a reference. -/
def dictSet (s : Store) (r : Nat) (k : String) (v : Option String) : Store :=
  s.set r (alistSet (s.get r) k v)

/-- Modelled from the spec: the query-parameter and header names of
`const.py` (collaborator plumbing; the concrete strings are immaterial). -/
def URL_PATH_OBJECTS : String := "objects"

def QPARAM_ARCHPATH : String := "archpath"

def QPARAM_ARCHREGX : String := "archregx"

def QPARAM_ARCHMODE : String := "archmode"

def QPARAM_ETL_NAME : String := "etl_name"

def QPARAM_LATEST : String := "latest"

def QPARAM_OBJ_APPEND : String := "append-type"

def QPARAM_OBJ_APPEND_HANDLE : String := "append-handle"

def QPARAM_NEW_CUSTOM : String := "set-new-custom"

def HEADER_RANGE : String := "Range"

def HEADER_OBJECT_BLOB_DOWNLOAD : String := "ais-blob-download"

def HEADER_OBJECT_BLOB_CHUNK_SIZE : String := "ais-blob-chunk"

def HEADER_OBJECT_BLOB_WORKERS : String := "ais-blob-workers"

/-- Archive extraction settings (`mode` already holds the enum's string
value, absorbing the `archive_config.mode = archive_config.mode.value`
normalization of `Object.get`). -/
structure ArchiveConfig where
  archpath : Option String
  regex : Option String
  mode : Option String

/-- Blob-download settings passed to `Object.get`. -/
structure BlobDownloadConfig where
  chunk_size : Option String
  num_workers : Option String

/-- The `Object` of `object.py`: bucket name, object name, and the reference
to the bucket's query-parameter dictionary (`self._qparams`). -/
structure ObjectModel where
  bck_name : String
  name : String
  qparamsRef : Nat

/-- `self._object_path`. -/
def ObjectModel.object_path (o : ObjectModel) : String :=
  URL_PATH_OBJECTS ++ "/" ++ o.bck_name ++ "/" ++ o.name

/-- An HTTP request issued by an `Object` operation. -/
inductive HttpReq
  | get (path : String) (startPos : Nat)
  | put (path : String)
  | post (path : String)
  | patch (path : String)

/-- The `ObjectClient` constructed by `Object.get`: resource path, a
reference to its query-parameter dictionary, and its headers. -/
structure ObjectClientDescr where
  path : String
  paramsRef : Nat
  headers : List (String × Option String)

/-- The `ObjectReader` constructed by `Object.get`. -/
structure ObjectReaderDescr where
  client : ObjectClientDescr
  chunk_size : Nat

/-- Python truthiness of an optional string (`None` and `""` are falsy). -/
def optTruthy : Option String → Bool
  | none => false
  | some s => if s = "" then false else true

/-- `Object.get` (`object.py` lines 108-181): copies the bucket's query
parameters, folds in archive/blob/etl/latest options, rejects the
byte-range + blob-download combination with a `ValueError` before any
client or reader is constructed, otherwise builds the reader; a provided
`writer` drains the reader, issuing one streamed GET. -/
def Object.get (s : Store) (o : ObjectModel) (archive_config : Option ArchiveConfig)
    (blob_download_config : Option BlobDownloadConfig) (chunk_size : Nat)
    (etl_name : Option String) (writer : Bool) (latest : Bool)
    (byte_range : Option String) :
    Except String ObjectReaderDescr × Store × List HttpReq :=
  let pc := dictCopy s o.qparamsRef
  let pRef := pc.1
  let s1 := pc.2
  let s2 :=
    match archive_config with
    | some ac =>
      dictSet (dictSet (dictSet s1 pRef QPARAM_ARCHPATH ac.archpath)
        pRef QPARAM_ARCHREGX ac.regex) pRef QPARAM_ARCHMODE ac.mode
    | none => s1
  let headers1 : List (String × Option String) :=
    match blob_download_config with
    | some bc =>
      alistSet (alistSet (alistSet [] HEADER_OBJECT_BLOB_DOWNLOAD (some "true"))
        HEADER_OBJECT_BLOB_CHUNK_SIZE bc.chunk_size)
        HEADER_OBJECT_BLOB_WORKERS bc.num_workers
    | none => []
  let s3 := if optTruthy etl_name then dictSet s2 pRef QPARAM_ETL_NAME etl_name else s2
  let s4 := if latest then dictSet s3 pRef QPARAM_LATEST (some "true") else s3
  if optTruthy byte_range && blob_download_config.isSome then
    (.error "Cannot use Byte Range with Blob Download", s4, [])
  else
    let headers2 := if optTruthy byte_range then [(HEADER_RANGE, byte_range)] else headers1
    let reader : ObjectReaderDescr := ⟨⟨o.object_path, pRef, headers2⟩, chunk_size⟩
    (.ok reader, s4, if writer then [HttpReq.get o.object_path 0] else [])

/-- `Object.get_url`: copies the query parameters, optionally adds archive
path and ETL name, and returns the full URL (path with the parameter
snapshot); no request is issued. -/
def Object.get_url (s : Store) (o : ObjectModel) (archpath : String)
    (etl_name : Option String) :
    (String × List (String × Option String)) × Store :=
  let pc := dictCopy s o.qparamsRef
  let pRef := pc.1
  let s1 := pc.2
  let s2 := if archpath = "" then s1 else dictSet s1 pRef QPARAM_ARCHPATH (some archpath)
  let s3 := if optTruthy etl_name then dictSet s2 pRef QPARAM_ETL_NAME etl_name else s2
  ((o.object_path, Store.get s3 pRef), s3)

/-- `Object.blob_download`: copies the query parameters (adds none) and
issues one POST to the bucket path. -/
def Object.blob_download (s : Store) (o : ObjectModel) (_chunk_size : Option String)
    (_num_workers : Option String) (_latest : Bool) : Store × List HttpReq :=
  let pc := dictCopy s o.qparamsRef
  (pc.2, [HttpReq.post (URL_PATH_OBJECTS ++ "/" ++ o.bck_name)])

/-- `Object.append_content`: copies the query parameters, adds the append
mode ("append", or "flush" when flushing) and the handle, and issues one
PUT. -/
def Object.append_content (s : Store) (o : ObjectModel) (_content : List Nat)
    (handle : String) (flush : Bool) : Store × List HttpReq :=
  let pc := dictCopy s o.qparamsRef
  let pRef := pc.1
  let s1 := pc.2
  let s2 := dictSet s1 pRef QPARAM_OBJ_APPEND (some (if flush then "flush" else "append"))
  let s3 := dictSet s2 pRef QPARAM_OBJ_APPEND_HANDLE (some handle)
  (s3, [HttpReq.put o.object_path])

/-- `Object.set_custom_props`: copies the query parameters, optionally adds
the replace-existing flag, and issues one PATCH. -/
def Object.set_custom_props (s : Store) (o : ObjectModel)
    (_custom_metadata : List (String × String)) (replace_existing : Bool) :
    Store × List HttpReq :=
  let pc := dictCopy s o.qparamsRef
  let pRef := pc.1
  let s1 := pc.2
  let s2 := if replace_existing then dictSet s1 pRef QPARAM_NEW_CUSTOM (some "true") else s1
  (s2, [HttpReq.patch o.object_path])

/-! ### List helper lemmas -/

theorem joinAll_append (a b : List (List Nat)) :
    joinAll (a ++ b) = joinAll a ++ joinAll b := by
  induction a with
  | nil => simp [joinAll]
  | cons c cs ih => simp [joinAll, ih]

theorem take_append_left (l1 l2 : List Nat) (k : Nat) (h : k ≤ l1.length) :
    (l1 ++ l2).take k = l1.take k := by
  induction l1 generalizing k with
  | nil =>
    have hk : k = 0 := by simp at h; omega
    subst hk; simp
  | cons x xs ih =>
    cases k with
    | zero => simp
    | succ j =>
      simp only [List.cons_append, List.take_succ_cons, List.cons.injEq, true_and]
      exact ih j (by simp at h; omega)

theorem drop_append_left (l1 l2 : List Nat) (k : Nat) (h : k ≤ l1.length) :
    (l1 ++ l2).drop k = l1.drop k ++ l2 := by
  induction l1 generalizing k with
  | nil =>
    have hk : k = 0 := by simp at h; omega
    subst hk; simp
  | cons x xs ih =>
    cases k with
    | zero => simp
    | succ j =>
      simp only [List.cons_append, List.drop_succ_cons]
      exact ih j (by simp at h; omega)

theorem sumLens_take_mono (l : List (List Nat)) (i : Nat) :
    sumLens (l.take i) ≤ sumLens (l.take (i + 1)) := by
  induction l generalizing i with
  | nil => simp
  | cons c cs ih =>
    cases i with
    | zero => simp [sumLens]
    | succ j => simp only [List.take_succ_cons, sumLens]; have := ih j; omega

/-! ### Chunking lemmas -/

theorem chunksFromAux_congr (cs : Nat) :
    ∀ (f1 f2 : Nat) (bs : List Nat), bs.length ≤ f1 → bs.length ≤ f2 →
      chunksFromAux cs f1 bs = chunksFromAux cs f2 bs := by
  intro f1
  induction f1 with
  | zero =>
    intro f2 bs h1 _
    have hbs : bs = [] := by
      cases bs with
      | nil => rfl
      | cons x xs => simp at h1
    subst hbs
    cases f2 with
    | zero => rfl
    | succ k => simp [chunksFromAux]
  | succ f ih =>
    intro f2 bs h1 h2
    cases f2 with
    | zero =>
      have hbs : bs = [] := by
        cases bs with
        | nil => rfl
        | cons x xs => simp at h2
      subst hbs
      simp [chunksFromAux]
    | succ k =>
      simp only [chunksFromAux]
      by_cases hg : cs = 0 ∨ bs = []
      · simp [hg]
      · push_neg at hg
        simp only [hg.1, hg.2, or_self, if_neg, if_false]
        have hlen : (bs.drop cs).length ≤ f := by
          have : 0 < bs.length := List.length_pos.mpr hg.2
          have : 0 < cs := Nat.pos_of_ne_zero hg.1
          simp [List.length_drop]; omega
        have hlen2 : (bs.drop cs).length ≤ k := by
          have : 0 < bs.length := List.length_pos.mpr hg.2
          have : 0 < cs := Nat.pos_of_ne_zero hg.1
          simp [List.length_drop]; omega
        rw [ih k (bs.drop cs) hlen hlen2]

theorem chunksFrom_cons_eq (cs : Nat) (bs : List Nat) (hcs : cs ≠ 0) (hbs : bs ≠ []) :
    chunksFrom cs bs = bs.take cs :: chunksFrom cs (bs.drop cs) := by
  have hg : ¬(cs = 0 ∨ bs = []) := by
    rintro (h | h)
    · exact hcs h
    · exact hbs h
  have hlpos : 0 < bs.length := List.length_pos.mpr hbs
  have hcpos : 0 < cs := Nat.pos_of_ne_zero hcs
  unfold chunksFrom
  cases hl : bs.length with
  | zero => omega
  | succ l =>
    simp only [chunksFromAux, if_neg hg]
    congr 1
    apply chunksFromAux_congr
    · simp only [List.length_drop]; omega
    · exact le_refl _

theorem chunksFrom_join (cs : Nat) (hcs : cs ≠ 0) :
    ∀ (fuel : Nat) (bs : List Nat), bs.length ≤ fuel →
      joinAll (chunksFromAux cs fuel bs) = bs := by
  intro fuel
  induction fuel with
  | zero =>
    intro bs h
    have hbs : bs = [] := by
      cases bs with
      | nil => rfl
      | cons x xs => simp at h
    subst hbs; rfl
  | succ f ih =>
    intro bs h
    simp only [chunksFromAux]
    by_cases hbs : bs = []
    · simp [hbs, joinAll]
    · simp only [hcs, hbs, or_self, if_false, if_neg, not_false_iff, joinAll]
      rw [ih (bs.drop cs) (by
        have : 0 < bs.length := List.length_pos.mpr hbs
        have : 0 < cs := Nat.pos_of_ne_zero hcs
        simp [List.length_drop]; omega)]
      exact List.take_append_drop cs bs

theorem chunksFromAux_take_join (cs : Nat) (hcs : cs ≠ 0) :
    ∀ (fuel m : Nat) (bs : List Nat), bs.length ≤ fuel →
      joinAll ((chunksFromAux cs fuel bs).take m) = bs.take (m * cs) := by
  intro fuel
  induction fuel with
  | zero =>
    intro m bs h
    have hbs : bs = [] := by
      cases bs with
      | nil => rfl
      | cons x xs => simp at h
    subst hbs; simp [chunksFromAux, joinAll]
  | succ f ih =>
    intro m bs h
    by_cases hbs : bs = []
    · subst hbs; simp [chunksFromAux, joinAll]
    · have hg : ¬(cs = 0 ∨ bs = []) := by
        rintro (hx | hx)
        · exact hcs hx
        · exact hbs hx
      have hlpos : 0 < bs.length := List.length_pos.mpr hbs
      have hcpos : 0 < cs := Nat.pos_of_ne_zero hcs
      simp only [chunksFromAux, if_neg hg]
      cases m with
      | zero => simp [joinAll]
      | succ k =>
        simp only [List.take_succ_cons, joinAll]
        rw [ih k (bs.drop cs) (by simp only [List.length_drop]; omega)]
        have hmul : (k + 1) * cs = cs + k * cs := by ring
        rw [hmul, List.take_add]

theorem chunksFromAux_length_gt (cs : Nat) (hcs : cs ≠ 0) :
    ∀ (fuel m : Nat) (bs : List Nat), bs.length ≤ fuel → m * cs < bs.length →
      m < (chunksFromAux cs fuel bs).length := by
  intro fuel
  induction fuel with
  | zero =>
    intro m bs h hm
    omega
  | succ f ih =>
    intro m bs h hm
    have hbs : bs ≠ [] := by
      intro hx; subst hx; simp at hm
    have hg : ¬(cs = 0 ∨ bs = []) := by
      rintro (hx | hx)
      · exact hcs hx
      · exact hbs hx
    have hcpos : 0 < cs := Nat.pos_of_ne_zero hcs
    simp only [chunksFromAux, if_neg hg, List.length_cons]
    cases m with
    | zero => omega
    | succ k =>
      have hk : k * cs < (bs.drop cs).length := by
        simp only [List.length_drop]
        have : (k + 1) * cs = k * cs + cs := by ring
        omega
      have := ih k (bs.drop cs) (by simp only [List.length_drop]; omega) hk
      omega

theorem chunksFrom_joinAll (cs : Nat) (bs : List Nat) (hcs : cs ≠ 0) :
    joinAll (chunksFrom cs bs) = bs :=
  chunksFrom_join cs hcs bs.length bs (le_refl _)

theorem chunksFrom_take_join (cs m : Nat) (bs : List Nat) (hcs : cs ≠ 0) :
    joinAll ((chunksFrom cs bs).take m) = bs.take (m * cs) :=
  chunksFromAux_take_join cs hcs bs.length m bs (le_refl _)

theorem chunksFrom_length_gt (cs m : Nat) (bs : List Nat) (hcs : cs ≠ 0)
    (hm : m * cs < bs.length) : m < (chunksFrom cs bs).length :=
  chunksFromAux_length_gt cs hcs bs.length m bs (le_refl _) hm

/-! ### Pull-count lemmas -/

theorem pullsNeeded_le (n : Nat) :
    ∀ (chunks : List (List Nat)) (bl j : Nat),
      n ≤ bl + (joinAll (chunks.take j)).length → pullsNeeded n bl chunks ≤ j := by
  intro chunks
  induction chunks with
  | nil => intro bl j _; simp [pullsNeeded]
  | cons c rest ih =>
    intro bl j h
    by_cases hs : n ≤ bl
    · simp [pullsNeeded, hs]
    · cases j with
      | zero => simp [joinAll] at h; omega
      | succ j' =>
        simp only [pullsNeeded, if_neg hs]
        have : n ≤ (bl + c.length) + (joinAll (rest.take j')).length := by
          simp only [List.take_succ_cons, joinAll, List.length_append] at h
          omega
        have := ih (bl + c.length) j' this
        omega

theorem pullsNeeded_sat (n : Nat) :
    ∀ (chunks : List (List Nat)) (bl : Nat),
      n ≤ bl + (joinAll chunks).length →
      n ≤ bl + (joinAll (chunks.take (pullsNeeded n bl chunks))).length := by
  intro chunks
  induction chunks with
  | nil => intro bl h; simpa [joinAll] using h
  | cons c rest ih =>
    intro bl h
    by_cases hs : n ≤ bl
    · simp only [pullsNeeded, if_pos hs]
      simpa [joinAll] using hs
    · simp only [pullsNeeded, if_neg hs, List.take_succ_cons, joinAll,
        List.length_append]
      have hrec := ih (bl + c.length) (by
        simp only [joinAll, List.length_append] at h; omega)
      omega

theorem pullsNeeded_all (n : Nat) :
    ∀ (chunks : List (List Nat)) (bl : Nat),
      bl + (joinAll chunks).length < n → pullsNeeded n bl chunks = chunks.length := by
  intro chunks
  induction chunks with
  | nil => intro bl _; simp [pullsNeeded]
  | cons c rest ih =>
    intro bl h
    have hs : ¬(n ≤ bl) := by simp [joinAll] at h; omega
    simp only [pullsNeeded, if_neg hs, List.length_cons]
    have := ih (bl + c.length) (by simp only [joinAll, List.length_append] at h; omega)
    omega

/-! ### fillOnce lemmas -/

theorem fillOnce_bounded_nofail (n : Nat) :
    ∀ (chunks : List (List Nat)) (buffer : List Nat),
      fillOnce (some n) buffer chunks none =
        .done (buffer ++ joinAll (chunks.take (pullsNeeded n buffer.length chunks)))
          ⟨chunks.drop (pullsNeeded n buffer.length chunks), none⟩ := by
  intro chunks
  induction chunks with
  | nil =>
    intro buffer
    by_cases hs : n ≤ buffer.length
    · simp [fillOnce, needSatisfied, hs, pullsNeeded, joinAll]
    · simp [fillOnce, needSatisfied, hs, pullsNeeded, joinAll]
  | cons c rest ih =>
    intro buffer
    by_cases hs : n ≤ buffer.length
    · simp [fillOnce, needSatisfied, hs, pullsNeeded, joinAll]
    · have hstep : fillOnce (some n) buffer (c :: rest) none
          = fillOnce (some n) (buffer ++ c) rest none := by
        simp [fillOnce, needSatisfied, hs]
      have hp : pullsNeeded n buffer.length (c :: rest)
          = pullsNeeded n (buffer ++ c).length rest + 1 := by
        simp [pullsNeeded, hs, List.length_append]
      rw [hstep, ih, hp]
      simp [joinAll, List.append_assoc]

theorem fillOnce_unbounded_nofail :
    ∀ (chunks : List (List Nat)) (buffer : List Nat),
      fillOnce none buffer chunks none = .done (buffer ++ joinAll chunks) ⟨[], none⟩ := by
  intro chunks
  induction chunks with
  | nil => intro buffer; simp [fillOnce, needSatisfied, joinAll]
  | cons c rest ih =>
    intro buffer
    have hstep : fillOnce none buffer (c :: rest) none
        = fillOnce none (buffer ++ c) rest none := by
      simp [fillOnce, needSatisfied]
    rw [hstep, ih]
    simp [joinAll, List.append_assoc]

theorem fillOnce_bounded_budget (n : Nat) :
    ∀ (chunks : List (List Nat)) (f : Nat) (buffer : List Nat),
      n ≤ buffer.length + (joinAll chunks).length →
      pullsNeeded n buffer.length chunks ≤ f →
      fillOnce (some n) buffer chunks (some f) =
        .done (buffer ++ joinAll (chunks.take (pullsNeeded n buffer.length chunks)))
          ⟨chunks.drop (pullsNeeded n buffer.length chunks),
           some (f - pullsNeeded n buffer.length chunks)⟩ := by
  intro chunks
  induction chunks with
  | nil =>
    intro f buffer h _
    have hs : n ≤ buffer.length := by simpa [joinAll] using h
    simp [fillOnce, needSatisfied, hs, pullsNeeded, joinAll]
  | cons c rest ih =>
    intro f buffer h hp
    by_cases hs : n ≤ buffer.length
    · simp [fillOnce, needSatisfied, hs, pullsNeeded, joinAll]
    · have hp1 : pullsNeeded n buffer.length (c :: rest)
          = pullsNeeded n (buffer ++ c).length rest + 1 := by
        simp [pullsNeeded, hs, List.length_append]
      cases f with
      | zero => rw [hp1] at hp; omega
      | succ g =>
        have hstep : fillOnce (some n) buffer (c :: rest) (some (g + 1))
            = fillOnce (some n) (buffer ++ c) rest (some g) := by
          simp [fillOnce, needSatisfied, hs]
        have hrec := ih g (buffer ++ c)
          (by simp only [joinAll, List.length_append] at h ⊢; omega)
          (by rw [hp1] at hp; omega)
        rw [hstep, hrec, hp1]
        simp [joinAll, List.append_assoc, Nat.succ_sub_succ]

theorem fillOnce_bounded_fail (n : Nat) :
    ∀ (chunks : List (List Nat)) (f : Nat) (buffer : List Nat),
      f < pullsNeeded n buffer.length chunks →
      fillOnce (some n) buffer chunks (some f) = .broke ⟨chunks.drop f, some 0⟩ := by
  intro chunks
  induction chunks with
  | nil => intro f buffer h; simp [pullsNeeded] at h
  | cons c rest ih =>
    intro f buffer h
    by_cases hs : n ≤ buffer.length
    · simp [pullsNeeded, hs] at h
    · cases f with
      | zero => simp [fillOnce, needSatisfied, hs]
      | succ g =>
        have hstep : fillOnce (some n) buffer (c :: rest) (some (g + 1))
            = fillOnce (some n) (buffer ++ c) rest (some g) := by
          simp [fillOnce, needSatisfied, hs]
        have hg : g < pullsNeeded n (buffer ++ c).length rest := by
          simp only [pullsNeeded, if_neg hs, List.length_append] at h ⊢
          omega
        rw [hstep, ih g (buffer ++ c) hg]
        simp

theorem fillOnce_unbounded_fail :
    ∀ (chunks : List (List Nat)) (f : Nat) (buffer : List Nat),
      f ≤ chunks.length →
      fillOnce none buffer chunks (some f) = .broke ⟨chunks.drop f, some 0⟩ := by
  intro chunks
  induction chunks with
  | nil =>
    intro f buffer h
    have hf : f = 0 := by simpa using h
    subst hf
    simp [fillOnce, needSatisfied]
  | cons c rest ih =>
    intro f buffer h
    cases f with
    | zero => simp [fillOnce, needSatisfied]
    | succ g =>
      have hstep : fillOnce none buffer (c :: rest) (some (g + 1))
          = fillOnce none (buffer ++ c) rest (some g) := by
        simp [fillOnce, needSatisfied]
      rw [hstep, ih g (buffer ++ c) (by simp at h; omega)]
      simp

theorem fillOnce_unbounded_budget :
    ∀ (chunks : List (List Nat)) (f : Nat) (buffer : List Nat),
      chunks.length < f →
      fillOnce none buffer chunks (some f) =
        .done (buffer ++ joinAll chunks) ⟨[], some (f - chunks.length)⟩ := by
  intro chunks
  induction chunks with
  | nil =>
    intro f buffer h
    have hf : f ≠ 0 := by omega
    simp [fillOnce, needSatisfied, joinAll, hf]
  | cons c rest ih =>
    intro f buffer h
    cases f with
    | zero => omega
    | succ g =>
      have hstep : fillOnce none buffer (c :: rest) (some (g + 1))
          = fillOnce none (buffer ++ c) rest (some g) := by
        simp [fillOnce, needSatisfied]
      rw [hstep, ih g (buffer ++ c) (by simp at h; omega)]
      simp [joinAll, List.append_assoc, Nat.succ_sub_succ]

/-! ### resumeLoop lemmas -/

theorem resumeLoop_eq (cfg : OFConfig) (pos : Nat) (need : Option Nat)
    (buffer : List Nat) (it : Iter) (log : List Nat) (rc : Nat)
    (h : rc ≤ cfg.maxResume) :
    resumeLoop cfg pos need buffer it log rc =
      match fillOnce need buffer it.chunks it.failAfter with
      | .done buf it2 => .ok buf it2 log rc
      | .broke it2 =>
        if rc < cfg.maxResume then
          resumeLoop cfg pos need [] (openIter cfg pos log.length) (log ++ [pos]) (rc + 1)
        else .exhausted it2 log rc := by
  unfold resumeLoop
  have hf : cfg.maxResume + 1 - rc = (cfg.maxResume - rc) + 1 := by omega
  have hf2 : cfg.maxResume + 1 - (rc + 1) = cfg.maxResume - rc := by omega
  rw [hf]
  simp only [resumeLoopAux, hf2]

theorem resumeLoop_done (cfg : OFConfig) (pos : Nat) (need : Option Nat)
    (buffer : List Nat) (it : Iter) (log : List Nat) (rc : Nat)
    (buf : List Nat) (it2 : Iter)
    (h1 : fillOnce need buffer it.chunks it.failAfter = .done buf it2)
    (h : rc ≤ cfg.maxResume) :
    resumeLoop cfg pos need buffer it log rc = .ok buf it2 log rc := by
  rw [resumeLoop_eq cfg pos need buffer it log rc h, h1]

theorem resumeLoop_broke_budget (cfg : OFConfig) (pos : Nat) (need : Option Nat)
    (buffer : List Nat) (it : Iter) (log : List Nat) (rc : Nat) (it2 : Iter)
    (h1 : fillOnce need buffer it.chunks it.failAfter = .broke it2)
    (h : rc < cfg.maxResume) :
    resumeLoop cfg pos need buffer it log rc =
      resumeLoop cfg pos need [] (openIter cfg pos log.length) (log ++ [pos]) (rc + 1) := by
  rw [resumeLoop_eq cfg pos need buffer it log rc (Nat.le_of_lt h), h1]
  simp [h]

theorem resumeLoop_broke_stop (cfg : OFConfig) (pos : Nat) (need : Option Nat)
    (buffer : List Nat) (it : Iter) (log : List Nat) (rc : Nat) (it2 : Iter)
    (h1 : fillOnce need buffer it.chunks it.failAfter = .broke it2)
    (h : rc = cfg.maxResume) :
    resumeLoop cfg pos need buffer it log rc = .exhausted it2 log rc := by
  rw [resumeLoop_eq cfg pos need buffer it log rc (Nat.le_of_eq h), h1]
  simp [h]

theorem resumeLoopAux_rcOf_le (cfg : OFConfig) (pos : Nat) (need : Option Nat) :
    ∀ (fuel : Nat) (buffer : List Nat) (it : Iter) (log : List Nat) (rc : Nat),
      rc ≤ cfg.maxResume →
      (resumeLoopAux cfg pos need fuel buffer it log rc).rcOf ≤ cfg.maxResume := by
  intro fuel
  induction fuel with
  | zero =>
    intro buffer it log rc h
    simpa [resumeLoopAux, FillResult.rcOf] using h
  | succ f ih =>
    intro buffer it log rc h
    simp only [resumeLoopAux]
    cases hfo : fillOnce need buffer it.chunks it.failAfter with
    | done buf it2 => simpa [FillResult.rcOf] using h
    | broke it2 =>
      by_cases hlt : rc < cfg.maxResume
      · simp only [if_pos hlt]
        exact ih [] (openIter cfg pos log.length) (log ++ [pos]) (rc + 1) (by omega)
      · simpa [if_neg hlt, FillResult.rcOf] using h

theorem resumeLoopAux_rcOf_ge (cfg : OFConfig) (pos : Nat) (need : Option Nat) :
    ∀ (fuel : Nat) (buffer : List Nat) (it : Iter) (log : List Nat) (rc : Nat),
      rc ≤ (resumeLoopAux cfg pos need fuel buffer it log rc).rcOf := by
  intro fuel
  induction fuel with
  | zero =>
    intro buffer it log rc
    simp [resumeLoopAux, FillResult.rcOf]
  | succ f ih =>
    intro buffer it log rc
    simp only [resumeLoopAux]
    cases hfo : fillOnce need buffer it.chunks it.failAfter with
    | done buf it2 => simp [FillResult.rcOf]
    | broke it2 =>
      by_cases hlt : rc < cfg.maxResume
      · simp only [if_pos hlt]
        have := ih [] (openIter cfg pos log.length) (log ++ [pos]) (rc + 1)
        omega
      · simp [if_neg hlt, FillResult.rcOf]

/-! ### read-level lemmas -/

theorem deliverCount_le (need : Option Nat) (buf : List Nat) :
    deliverCount need buf ≤ buf.length := by
  cases need with
  | none => simp [deliverCount]
  | some n => simp [deliverCount]

theorem length_resultBytes_readCore (cfg : OFConfig) (st : OFState)
    (need : Option Nat) (it : Iter) (log : List Nat) :
    (ObjectFile.readCore cfg st need it log).2.position
      = st.position + (resultBytes (ObjectFile.readCore cfg st need it log).1).length := by
  unfold ObjectFile.readCore
  cases hr : resumeLoop cfg st.position need st.buffer it log st.resumeCount with
  | ok buf it2 log2 rc2 =>
    simp only [resultBytes]
    rw [List.length_take]
    have := deliverCount_le need buf
    omega
  | exhausted it2 log2 rc2 => simp [resultBytes]

theorem readCore_closed (cfg : OFConfig) (st : OFState)
    (need : Option Nat) (it : Iter) (log : List Nat) :
    (ObjectFile.readCore cfg st need it log).2.closed = st.closed := by
  unfold ObjectFile.readCore
  cases hr : resumeLoop cfg st.position need st.buffer it log st.resumeCount with
  | ok buf it2 log2 rc2 => simp
  | exhausted it2 log2 rc2 => simp

theorem readCore_rc_le (cfg : OFConfig) (st : OFState)
    (need : Option Nat) (it : Iter) (log : List Nat)
    (h : st.resumeCount ≤ cfg.maxResume) :
    (ObjectFile.readCore cfg st need it log).2.resumeCount ≤ cfg.maxResume := by
  unfold ObjectFile.readCore
  have hrc := resumeLoopAux_rcOf_le cfg st.position need
    (cfg.maxResume + 1 - st.resumeCount) st.buffer it log st.resumeCount h
  rw [show resumeLoopAux cfg st.position need (cfg.maxResume + 1 - st.resumeCount)
        st.buffer it log st.resumeCount
      = resumeLoop cfg st.position need st.buffer it log st.resumeCount from rfl] at hrc
  cases hr : resumeLoop cfg st.position need st.buffer it log st.resumeCount with
  | ok buf it2 log2 rc2 =>
    rw [hr] at hrc
    simpa [FillResult.rcOf] using hrc
  | exhausted it2 log2 rc2 =>
    rw [hr] at hrc
    simpa [FillResult.rcOf] using hrc

theorem readCore_rc_ge (cfg : OFConfig) (st : OFState)
    (need : Option Nat) (it : Iter) (log : List Nat) :
    st.resumeCount ≤ (ObjectFile.readCore cfg st need it log).2.resumeCount := by
  unfold ObjectFile.readCore
  have hrc := resumeLoopAux_rcOf_ge cfg st.position need
    (cfg.maxResume + 1 - st.resumeCount) st.buffer it log st.resumeCount
  rw [show resumeLoopAux cfg st.position need (cfg.maxResume + 1 - st.resumeCount)
        st.buffer it log st.resumeCount
      = resumeLoop cfg st.position need st.buffer it log st.resumeCount from rfl] at hrc
  cases hr : resumeLoop cfg st.position need st.buffer it log st.resumeCount with
  | ok buf it2 log2 rc2 =>
    rw [hr] at hrc
    simpa [FillResult.rcOf] using hrc
  | exhausted it2 log2 rc2 =>
    rw [hr] at hrc
    simpa [FillResult.rcOf] using hrc

theorem read_position (cfg : OFConfig) (st : OFState) (need : Option Nat) :
    (ObjectFile.read cfg st need).2.position
      = st.position + (resultBytes (ObjectFile.read cfg st need).1).length := by
  unfold ObjectFile.read
  by_cases hcl : st.closed
  · simp [hcl, resultBytes]
  · by_cases hz : need = some 0
    · simp [hcl, hz, resultBytes]
    · cases hit : st.iter with
      | some it => simp [hcl, hz, length_resultBytes_readCore]
      | none => simp [hcl, hz, length_resultBytes_readCore]

theorem read_closed (cfg : OFConfig) (st : OFState) (need : Option Nat) :
    (ObjectFile.read cfg st need).2.closed = st.closed := by
  unfold ObjectFile.read
  by_cases hcl : st.closed
  · simp [hcl]
  · by_cases hz : need = some 0
    · simp [hcl, hz]
    · cases hit : st.iter with
      | some it => simp [hcl, hz, readCore_closed]
      | none => simp [hcl, hz, readCore_closed]

theorem read_rc_le (cfg : OFConfig) (st : OFState) (need : Option Nat)
    (h : st.resumeCount ≤ cfg.maxResume) :
    (ObjectFile.read cfg st need).2.resumeCount ≤ cfg.maxResume := by
  unfold ObjectFile.read
  by_cases hcl : st.closed
  · simpa [hcl] using h
  · by_cases hz : need = some 0
    · simpa [hcl, hz] using h
    · cases hit : st.iter with
      | some it => simpa [hcl, hz] using readCore_rc_le cfg st need it st.getLog h
      | none =>
        simpa [hcl, hz] using readCore_rc_le cfg st need
          (openIter cfg st.position st.getLog.length) (st.getLog ++ [st.position]) h

theorem read_rc_ge (cfg : OFConfig) (st : OFState) (need : Option Nat) :
    st.resumeCount ≤ (ObjectFile.read cfg st need).2.resumeCount := by
  unfold ObjectFile.read
  by_cases hcl : st.closed
  · simp [hcl]
  · by_cases hz : need = some 0
    · simp [hcl, hz]
    · cases hit : st.iter with
      | some it => simpa [hcl, hz] using readCore_rc_ge cfg st need it st.getLog
      | none =>
        simpa [hcl, hz] using readCore_rc_ge cfg st need
          (openIter cfg st.position st.getLog.length) (st.getLog ++ [st.position])

/-! ### runReads lemmas -/

theorem runReads_closed (cfg : OFConfig) :
    ∀ (reads : List (Option Nat)) (st : OFState),
      (runReads cfg st reads).2.closed = st.closed := by
  intro reads
  induction reads with
  | nil => intro st; simp [runReads]
  | cons r rs ih =>
    intro st
    simp only [runReads]
    rw [ih, read_closed]

theorem runReads_position (cfg : OFConfig) :
    ∀ (reads : List (Option Nat)) (st : OFState),
      (runReads cfg st reads).2.position = st.position + sumLens (runReads cfg st reads).1 := by
  intro reads
  induction reads with
  | nil => intro st; simp [runReads, sumLens]
  | cons r rs ih =>
    intro st
    simp only [runReads, sumLens]
    rw [ih, read_position]
    omega

theorem runReads_rc_le (cfg : OFConfig) :
    ∀ (reads : List (Option Nat)) (st : OFState),
      st.resumeCount ≤ cfg.maxResume →
      (runReads cfg st reads).2.resumeCount ≤ cfg.maxResume := by
  intro reads
  induction reads with
  | nil => intro st h; simpa [runReads] using h
  | cons r rs ih =>
    intro st h
    simp only [runReads]
    exact ih _ (read_rc_le cfg st r h)

theorem runReads_rc_ge (cfg : OFConfig) :
    ∀ (reads : List (Option Nat)) (st : OFState),
      st.resumeCount ≤ (runReads cfg st reads).2.resumeCount := by
  intro reads
  induction reads with
  | nil => intro st; simp [runReads]
  | cons r rs ih =>
    intro st
    simp only [runReads]
    exact Nat.le_trans (read_rc_ge cfg st r) (ih _)

theorem runReads_take_out (cfg : OFConfig) :
    ∀ (reads : List (Option Nat)) (st : OFState) (i : Nat),
      (runReads cfg st (reads.take i)).1 = (runReads cfg st reads).1.take i := by
  intro reads
  induction reads with
  | nil => intro st i; simp [runReads]
  | cons r rs ih =>
    intro st i
    cases i with
    | zero => simp [runReads]
    | succ j =>
      simp only [List.take_succ_cons, runReads]
      rw [ih]

theorem runReads_append (cfg : OFConfig) :
    ∀ (as bs : List (Option Nat)) (st : OFState),
      runReads cfg st (as ++ bs)
        = ((runReads cfg st as).1 ++ (runReads cfg (runReads cfg st as).2 bs).1,
           (runReads cfg (runReads cfg st as).2 bs).2) := by
  intro as
  induction as with
  | nil => intro bs st; simp [runReads]
  | cons a rest ih =>
    intro bs st
    simp only [List.cons_append, runReads, List.append_eq]
    rw [ih]

/-! ### Failure-free read characterization -/

theorem deliverTarget_le (need : Option Nat) (rem : Nat) :
    deliverTarget need rem ≤ rem := by
  cases need with
  | none => simp [deliverTarget]
  | some n => simp [deliverTarget]

theorem readCore_good (cfg : OFConfig) (st : OFState) (need : Option Nat)
    (it : Iter) (log : List Nat)
    (hfa : it.failAfter = none)
    (hinv : st.buffer ++ joinAll it.chunks = cfg.data.drop st.position)
    (hrc : st.resumeCount ≤ cfg.maxResume)
    (hpos : st.position ≤ cfg.data.length) :
    (ObjectFile.readCore cfg st need it log).1
        = .ok ((cfg.data.drop st.position).take
            (deliverTarget need (cfg.data.length - st.position)))
    ∧ (ObjectFile.readCore cfg st need it log).2.position
        = st.position + deliverTarget need (cfg.data.length - st.position)
    ∧ (ObjectFile.readCore cfg st need it log).2.getLog = log
    ∧ (ObjectFile.readCore cfg st need it log).2.resumeCount = st.resumeCount
    ∧ (ObjectFile.readCore cfg st need it log).2.closed = st.closed
    ∧ IterGood cfg (ObjectFile.readCore cfg st need it log).2.position
        (ObjectFile.readCore cfg st need it log).2.buffer
        (ObjectFile.readCore cfg st need it log).2.iter := by
  obtain ⟨chunks, fa⟩ := it
  simp only at hfa hinv
  subst hfa
  have hrest_len : (cfg.data.drop st.position).length
      = cfg.data.length - st.position := by
    simp [List.length_drop]
  have hfull : st.position + (cfg.data.length - st.position) = cfg.data.length := by
    omega
  cases need with
  | none =>
    have hfill := fillOnce_unbounded_nofail chunks st.buffer
    have hloop := resumeLoop_done cfg st.position none st.buffer ⟨chunks, none⟩
      log st.resumeCount (st.buffer ++ joinAll chunks) ⟨[], none⟩ hfill hrc
    unfold ObjectFile.readCore
    rw [hloop]
    dsimp only [deliverCount, deliverTarget]
    rw [hinv]
    refine ⟨?_, ?_, rfl, rfl, rfl, ?_⟩
    · rw [hrest_len]
    · rw [hrest_len]
    · dsimp only [IterGood]
      refine ⟨rfl, ?_⟩
      rw [List.drop_length]
      simp only [joinAll, List.append_nil, List.nil_append]
      rw [hrest_len, hfull, List.drop_length]
  | some n =>
    have hfill := fillOnce_bounded_nofail n chunks st.buffer
    have hloop := resumeLoop_done cfg st.position (some n) st.buffer ⟨chunks, none⟩
      log st.resumeCount _ _ hfill hrc
    have hsplit : (st.buffer ++ joinAll (chunks.take (pullsNeeded n st.buffer.length chunks)))
        ++ joinAll (chunks.drop (pullsNeeded n st.buffer.length chunks))
        = cfg.data.drop st.position := by
      rw [List.append_assoc, ← joinAll_append, List.take_append_drop]
      exact hinv
    have hlen_sum : st.buffer.length + (joinAll chunks).length
        = cfg.data.length - st.position := by
      have := congrArg List.length hinv
      simpa [List.length_append, hrest_len] using this
    unfold ObjectFile.readCore
    rw [hloop]
    dsimp only [deliverCount, deliverTarget, IterGood]
    set p := pullsNeeded n st.buffer.length chunks with hp
    set buf := st.buffer ++ joinAll (chunks.take p) with hbuf
    by_cases hn : n ≤ cfg.data.length - st.position
    · -- the request is fully satisfied
      have hsat : n ≤ buf.length := by
        have := pullsNeeded_sat n chunks st.buffer.length (by omega)
        simpa [hbuf, List.length_append] using this
      have hk : min n buf.length = n := by omega
      have htgt : min n (cfg.data.length - st.position) = n := by omega
      rw [hk, htgt]
      refine ⟨?_, rfl, rfl, rfl, rfl, rfl, ?_⟩
      · rw [← hsplit, take_append_left buf _ n hsat]
      · have hdsplit := drop_append_left buf (joinAll (chunks.drop p)) n hsat
        rw [← hdsplit, hsplit, List.drop_drop]
    · -- the object runs out before n bytes are available
      have hall : p = chunks.length := by
        rw [hp]
        exact pullsNeeded_all n chunks st.buffer.length (by omega)
      have hbuf_all : buf = cfg.data.drop st.position := by
        rw [hbuf, hall, List.take_length, hinv]
      have hbuf_len : buf.length = cfg.data.length - st.position := by
        rw [hbuf_all, hrest_len]
      have hk : min n buf.length = cfg.data.length - st.position := by omega
      have htgt : min n (cfg.data.length - st.position)
          = cfg.data.length - st.position := by omega
      rw [hk, htgt]
      refine ⟨?_, rfl, rfl, rfl, rfl, rfl, ?_⟩
      · rw [hbuf_all]
      · rw [hall, List.drop_length, hbuf_all]
        simp only [joinAll, List.append_nil]
        rw [← hrest_len, List.drop_length, hrest_len, hfull, List.drop_length]

theorem read_closed_eq (cfg : OFConfig) (st : OFState) (need : Option Nat)
    (hcl : st.closed = true) :
    ObjectFile.read cfg st need = (.error .invalidState, st) := by
  unfold ObjectFile.read
  rw [if_pos hcl]

theorem read_zero_eq (cfg : OFConfig) (st : OFState) (hcl : st.closed = false) :
    ObjectFile.read cfg st (some 0) = (.ok [], st) := by
  unfold ObjectFile.read
  rw [if_neg (by simp [hcl]), if_pos rfl]

theorem read_open_eq (cfg : OFConfig) (st : OFState) (need : Option Nat)
    (hcl : st.closed = false) (hz : need ≠ some 0) :
    ObjectFile.read cfg st need =
      match st.iter with
      | some it => ObjectFile.readCore cfg st need it st.getLog
      | none =>
        ObjectFile.readCore cfg st need
          (openIter cfg st.position st.getLog.length) (st.getLog ++ [st.position]) := by
  unfold ObjectFile.read
  rw [if_neg (by simp [hcl]), if_neg hz]

theorem tell_eq (st : OFState) (hcl : st.closed = false) :
    ObjectFile.tell st = .ok st.position := by
  unfold ObjectFile.tell
  rw [if_neg (by simp [hcl])]

theorem read_good (cfg : OFConfig) (st : OFState) (need : Option Nat)
    (hcs : cfg.chunkSize ≠ 0) (hnf : cfg.fails = []) (hg : Good cfg st) :
    (ObjectFile.read cfg st need).1
        = .ok ((cfg.data.drop st.position).take
            (deliverTarget need (cfg.data.length - st.position)))
    ∧ (ObjectFile.read cfg st need).2.position
        = st.position + deliverTarget need (cfg.data.length - st.position)
    ∧ Good cfg (ObjectFile.read cfg st need).2 := by
  obtain ⟨hcl, hrc, hpos, hiter⟩ := hg
  by_cases hz : need = some 0
  · subst hz
    rw [read_zero_eq cfg st hcl]
    dsimp only [deliverTarget]
    refine ⟨by simp, by simp, hcl, hrc, hpos, hiter⟩
  · rw [read_open_eq cfg st need hcl hz]
    cases hit : st.iter with
    | some it =>
      rw [hit] at hiter
      dsimp only [IterGood] at hiter
      obtain ⟨hfa, hinv⟩ := hiter
      obtain ⟨h1, h2, _h3, h4, h5, h6⟩ :=
        readCore_good cfg st need it st.getLog hfa hinv hrc hpos
      refine ⟨h1, h2, ?_, ?_, ?_, h6⟩
      · rw [h5, hcl]
      · rw [h4]; exact hrc
      · rw [h2]
        have := deliverTarget_le need (cfg.data.length - st.position)
        omega
    | none =>
      rw [hit] at hiter
      dsimp only [IterGood] at hiter
      have hfa : (openIter cfg st.position st.getLog.length).failAfter = none := by
        simp only [openIter]
        rw [hnf]
        rfl
      have hinv : st.buffer ++ joinAll (openIter cfg st.position st.getLog.length).chunks
          = cfg.data.drop st.position := by
        simp only [openIter, ContentIterator.iter_from_position]
        rw [hiter, List.nil_append]
        exact chunksFrom_joinAll cfg.chunkSize (cfg.data.drop st.position) hcs
      obtain ⟨h1, h2, _h3, h4, h5, h6⟩ :=
        readCore_good cfg st need (openIter cfg st.position st.getLog.length)
          (st.getLog ++ [st.position]) hfa hinv hrc hpos
      refine ⟨h1, h2, ?_, ?_, ?_, h6⟩
      · rw [h5, hcl]
      · rw [h4]; exact hrc
      · rw [h2]
        have := deliverTarget_le need (cfg.data.length - st.position)
        omega

theorem runReads_good (cfg : OFConfig) (hcs : cfg.chunkSize ≠ 0) (hnf : cfg.fails = []) :
    ∀ (reads : List (Option Nat)) (st : OFState), Good cfg st →
      Good cfg (runReads cfg st reads).2
      ∧ joinAll (runReads cfg st reads).1
          = (cfg.data.drop st.position).take
              ((runReads cfg st reads).2.position - st.position)
      ∧ st.position ≤ (runReads cfg st reads).2.position := by
  intro reads
  induction reads with
  | nil =>
    intro st hg
    refine ⟨hg, ?_, Nat.le_refl _⟩
    simp [runReads, joinAll]
  | cons r rs ih =>
    intro st hg
    obtain ⟨hres, hpos1, hg1⟩ := read_good cfg st r hcs hnf hg
    obtain ⟨hg2, hjoin2, hmono2⟩ := ih (ObjectFile.read cfg st r).2 hg1
    simp only [runReads]
    rw [hpos1] at hmono2
    refine ⟨hg2, ?_, by omega⟩
    simp only [joinAll, hres, resultBytes]
    rw [hjoin2, hpos1]
    have harith :
        (runReads cfg (ObjectFile.read cfg st r).2 rs).2.position - st.position
        = deliverTarget r (cfg.data.length - st.position)
          + ((runReads cfg (ObjectFile.read cfg st r).2 rs).2.position
              - (st.position + deliverTarget r (cfg.data.length - st.position))) := by
      omega
    rw [harith, List.take_add, List.drop_drop]

/-! ### Store frame lemmas -/

theorem memGet_memSet_ne :
    ∀ (mem : List (Nat × List (String × Option String))) (r r2 : Nat)
      (v : List (String × Option String)), r ≠ r2 →
      memGet (memSet mem r v) r2 = memGet mem r2 := by
  intro mem
  induction mem with
  | nil =>
    intro r r2 v h
    simp [memSet, memGet, h]
  | cons p rest ih =>
    intro r r2 v h
    obtain ⟨r3, v3⟩ := p
    by_cases h3 : r3 = r
    · subst h3
      simp only [memSet, if_pos rfl, memGet]
      rw [if_neg h, if_neg h]
    · simp only [memSet, if_neg h3, memGet]
      by_cases h32 : r3 = r2
      · rw [if_pos h32, if_pos h32]
      · rw [if_neg h32, if_neg h32]
        exact ih r r2 v h

theorem Store.get_set_ne (s : Store) (r r2 : Nat)
    (v : List (String × Option String)) (h : r ≠ r2) :
    (s.set r v).get r2 = s.get r2 :=
  memGet_memSet_ne s.mem r r2 v h

theorem Store.get_alloc_frame (s : Store) (v : List (String × Option String))
    (r2 : Nat) (h : r2 < s.next) :
    ((s.alloc v).2).get r2 = s.get r2 := by
  simp only [Store.alloc, Store.get, memGet]
  rw [if_neg (by omega)]

theorem dictCopy_frame (s : Store) (r r2 : Nat) (h : r2 < s.next) :
    ((dictCopy s r).2).get r2 = s.get r2 :=
  Store.get_alloc_frame s (s.get r) r2 h

theorem dictSet_frame (s : Store) (r : Nat) (k : String) (v : Option String)
    (r2 : Nat) (h : r ≠ r2) :
    (dictSet s r k v).get r2 = s.get r2 :=
  Store.get_set_ne s r r2 _ h

theorem dictCopy_fst (s : Store) (r : Nat) : (dictCopy s r).1 = s.next := rfl

theorem object_get_qparams_frame (s : Store) (o : ObjectModel)
    (ac : Option ArchiveConfig) (bc : Option BlobDownloadConfig) (csz : Nat)
    (etl : Option String) (w : Bool) (lat : Bool) (br : Option String)
    (hv : o.qparamsRef < s.next) :
    (Object.get s o ac bc csz etl w lat br).2.1.get o.qparamsRef
      = s.get o.qparamsRef := by
  have hne : (dictCopy s o.qparamsRef).1 ≠ o.qparamsRef := by
    rw [dictCopy_fst]
    omega
  rcases ac with _ | a <;> by_cases hetl : optTruthy etl <;>
    by_cases hlat : lat <;>
    by_cases hbr : optTruthy br && bc.isSome <;>
    simp [Object.get, hetl, hlat, hbr, dictSet_frame, hne, dictCopy_frame, hv]

theorem object_get_url_qparams_frame (s : Store) (o : ObjectModel)
    (archpath : String) (etl : Option String) (hv : o.qparamsRef < s.next) :
    (Object.get_url s o archpath etl).2.get o.qparamsRef = s.get o.qparamsRef := by
  have hne : (dictCopy s o.qparamsRef).1 ≠ o.qparamsRef := by
    rw [dictCopy_fst]
    omega
  by_cases harch : archpath = "" <;> by_cases hetl : optTruthy etl <;>
    simp [Object.get_url, harch, hetl, dictSet_frame, hne, dictCopy_frame, hv]

theorem object_blob_download_qparams_frame (s : Store) (o : ObjectModel)
    (csz nw : Option String) (lat : Bool) (hv : o.qparamsRef < s.next) :
    (Object.blob_download s o csz nw lat).1.get o.qparamsRef
      = s.get o.qparamsRef := by
  simp [Object.blob_download, dictCopy_frame, hv]

theorem object_append_content_qparams_frame (s : Store) (o : ObjectModel)
    (content : List Nat) (handle : String) (flush : Bool)
    (hv : o.qparamsRef < s.next) :
    (Object.append_content s o content handle flush).1.get o.qparamsRef
      = s.get o.qparamsRef := by
  have hne : (dictCopy s o.qparamsRef).1 ≠ o.qparamsRef := by
    rw [dictCopy_fst]
    omega
  simp [Object.append_content, dictSet_frame, hne, dictCopy_frame, hv]

theorem object_set_custom_props_qparams_frame (s : Store) (o : ObjectModel)
    (md : List (String × String)) (rep : Bool) (hv : o.qparamsRef < s.next) :
    (Object.set_custom_props s o md rep).1.get o.qparamsRef
      = s.get o.qparamsRef := by
  have hne : (dictCopy s o.qparamsRef).1 ≠ o.qparamsRef := by
    rw [dictCopy_fst]
    omega
  by_cases hrep : rep <;>
    simp [Object.set_custom_props, hrep, dictSet_frame, hne, dictCopy_frame, hv]

/-! ### Claims about the facade and request assembly -/

/-- C7 (attributes caching): the `attributes` property performs a HEAD only
when no snapshot is cached and memoizes it, so a repeated access issues no
request; both `head()` and every GET performed by the reader replace the
cached `ObjectAttributes` wholesale with a value that does not depend on
the previous cache. -/
theorem c7_attributes_caching (c : ObjectClientModel) (st : ObjectReaderState) :
    (st.attributesCache = none →
      ObjectReader.attributes c st = (c.headAttrs, ⟨some c.headAttrs⟩, [.headReq]))
    ∧ (∀ a, st.attributesCache = some a → ObjectReader.attributes c st = (a, st, []))
    ∧ (ObjectReader.attributes c (ObjectReader.attributes c st).2.1).2.2 = []
    ∧ (ObjectReader.head c st).2.1.attributesCache = some c.headAttrs
    ∧ (∀ stream startPos,
        (ObjectReader.makeRequest c st stream startPos).2.1.attributesCache
          = some (ObjectAttributes.mk c.getHeaders)) := by
  refine ⟨?_, ?_, ?_, rfl, fun stream startPos => rfl⟩
  · intro h
    simp [ObjectReader.attributes, ObjectReader.head, h]
  · intro a h
    simp [ObjectReader.attributes, h]
  · cases h : st.attributesCache with
    | none => simp [ObjectReader.attributes, ObjectReader.head, h]
    | some a => simp [ObjectReader.attributes, h]

theorem c7_attributes_caching_witness :
    (ObjectReaderState.mk none).attributesCache = none
    ∧ ObjectReader.attributes ⟨⟨[("s", "5")]⟩, [("g", "1")], [7]⟩ ⟨none⟩
        = (⟨[("s", "5")]⟩, ⟨some ⟨[("s", "5")]⟩⟩, [.headReq]) :=
  ⟨rfl, (c7_attributes_caching ⟨⟨[("s", "5")]⟩, [("g", "1")], [7]⟩ ⟨none⟩).1 rfl⟩

/-- C8 (invalid-argument rejection): supplying both a truthy byte range and
a blob-download configuration to `Object.get` yields the `ValueError`
"Cannot use Byte Range with Blob Download" with no reader constructed, no
request issued, and the object's stored query parameters unchanged. -/
theorem c8_invalid_argument_rejection (s : Store) (o : ObjectModel)
    (ac : Option ArchiveConfig) (bc : BlobDownloadConfig) (csz : Nat)
    (etl : Option String) (w : Bool) (lat : Bool) (br : Option String)
    (hbr : optTruthy br = true) (hv : o.qparamsRef < s.next) :
    (Object.get s o ac (some bc) csz etl w lat br).1
        = .error "Cannot use Byte Range with Blob Download"
    ∧ (Object.get s o ac (some bc) csz etl w lat br).2.2 = []
    ∧ (Object.get s o ac (some bc) csz etl w lat br).2.1.get o.qparamsRef
        = s.get o.qparamsRef := by
  refine ⟨?_, ?_, object_get_qparams_frame s o ac (some bc) csz etl w lat br hv⟩
  · simp [Object.get, hbr]
  · simp [Object.get, hbr]

theorem c8_invalid_argument_rejection_witness :
    optTruthy (some "bytes=0-9") = true
    ∧ (0 : Nat) < 1
    ∧ (Object.get ⟨1, [(0, [("k", some "v")])]⟩ ⟨"b", "n", 0⟩ none
        (some ⟨none, none⟩) 4 none false false (some "bytes=0-9")).1
          = .error "Cannot use Byte Range with Blob Download" :=
  ⟨rfl, by omega,
   (c8_invalid_argument_rejection ⟨1, [(0, [("k", some "v")])]⟩ ⟨"b", "n", 0⟩ none
     ⟨none, none⟩ 4 none false false (some "bytes=0-9") rfl (by decide)).1⟩

/-- C10 (query-parameter frame property): `get`, `get_url`, `blob_download`,
`append_content` and `set_custom_props` all copy the bucket's
query-parameter dictionary before adding request-specific entries, so the
dictionary the object's `_qparams` reference points to is unchanged by
every one of these operations. -/
theorem c10_qparams_frame (s : Store) (o : ObjectModel)
    (hv : o.qparamsRef < s.next) :
    (∀ ac bc csz etl w lat br,
      (Object.get s o ac bc csz etl w lat br).2.1.get o.qparamsRef
        = s.get o.qparamsRef)
    ∧ (∀ archpath etl,
      (Object.get_url s o archpath etl).2.get o.qparamsRef = s.get o.qparamsRef)
    ∧ (∀ csz nw lat,
      (Object.blob_download s o csz nw lat).1.get o.qparamsRef
        = s.get o.qparamsRef)
    ∧ (∀ content handle flush,
      (Object.append_content s o content handle flush).1.get o.qparamsRef
        = s.get o.qparamsRef)
    ∧ (∀ md rep,
      (Object.set_custom_props s o md rep).1.get o.qparamsRef
        = s.get o.qparamsRef) :=
  ⟨fun ac bc csz etl w lat br => object_get_qparams_frame s o ac bc csz etl w lat br hv,
   fun archpath etl => object_get_url_qparams_frame s o archpath etl hv,
   fun csz nw lat => object_blob_download_qparams_frame s o csz nw lat hv,
   fun content handle flush => object_append_content_qparams_frame s o content handle flush hv,
   fun md rep => object_set_custom_props_qparams_frame s o md rep hv⟩

theorem c10_qparams_frame_witness :
    (0 : Nat) < 1
    ∧ (Object.append_content ⟨1, [(0, [("k", some "v")])]⟩ ⟨"b", "n", 0⟩ [] "" false).1.get 0
        = [("k", some "v")] :=
  ⟨by omega,
   ((c10_qparams_frame ⟨1, [(0, [("k", some "v")])]⟩ ⟨"b", "n", 0⟩
       (by decide)).2.2.2.1 [] "" false).trans rfl⟩

/-! ### Claims about the resumable stream -/

/-- C4 (position monotonicity): after any prefix of a sequence of read
calls on a fresh stream, `tell()` returns exactly the sum of the lengths of
all byte strings returned so far, and the position never decreases from one
call to the next.  This holds for every configuration, failure schedule
included. -/
theorem c4_position_monotonicity (cfg : OFConfig) (reads : List (Option Nat))
    (i : Nat) :
    ObjectFile.tell (runReads cfg OFState.init (reads.take i)).2
      = .ok (sumLens ((runReads cfg OFState.init reads).1.take i))
    ∧ (runReads cfg OFState.init (reads.take i)).2.position
      ≤ (runReads cfg OFState.init (reads.take (i + 1))).2.position := by
  have hcl : (runReads cfg OFState.init (reads.take i)).2.closed = false := by
    rw [runReads_closed]
    rfl
  constructor
  · have hp := runReads_position cfg (reads.take i) OFState.init
    rw [runReads_take_out] at hp
    rw [tell_eq _ hcl, hp]
    simp [OFState.init]
  · have hp1 := runReads_position cfg (reads.take i) OFState.init
    have hp2 := runReads_position cfg (reads.take (i + 1)) OFState.init
    rw [runReads_take_out] at hp1 hp2
    rw [hp1, hp2]
    have := sumLens_take_mono (runReads cfg OFState.init reads).1 i
    omega

/-- C5 (closed-state rejection): once `close()` has succeeded, every
subsequent `read`, `tell` or `close` on the resulting state fails with
`invalidState`; in particular the second `close()` fails rather than being
ignored. -/
theorem c5_closed_state_rejection (cfg : OFConfig) (st st2 : OFState)
    (need : Option Nat) (h : ObjectFile.close st = .ok st2) :
    (ObjectFile.read cfg st2 need).1 = .error .invalidState
    ∧ ObjectFile.tell st2 = .error .invalidState
    ∧ ObjectFile.close st2 = .error .invalidState := by
  unfold ObjectFile.close at h
  by_cases hcl : st.closed = true
  · rw [if_pos hcl] at h
    exact absurd h (by simp)
  · rw [if_neg hcl] at h
    have hst2 : st2 = { st with closed := true, buffer := [], iter := none } := by
      cases h
      rfl
    subst hst2
    refine ⟨?_, ?_, ?_⟩
    · rw [read_closed_eq cfg _ need rfl]
    · unfold ObjectFile.tell
      rw [if_pos rfl]
    · unfold ObjectFile.close
      rw [if_pos rfl]

theorem c5_closed_state_rejection_witness :
    ObjectFile.close OFState.init
        = .ok { position := 0, buffer := [], iter := none, getLog := []
                resumeCount := 0, closed := true }
    ∧ (ObjectFile.read ⟨[0, 1], 1, 5, []⟩
        { position := 0, buffer := [], iter := none, getLog := []
          resumeCount := 0, closed := true } none).1 = .error .invalidState :=
  ⟨rfl, (c5_closed_state_rejection ⟨[0, 1], 1, 5, []⟩ OFState.init _ none rfl).1⟩

/-- C6 counterexample: `close()` on a fresh stream succeeds and yields a
state on which `readable()` returns `false`, so `readable()` is not true at
every point of the stream's lifetime (this is also what `test_close`
asserts). -/
theorem c6_capability_queries_counterexample :
    ObjectFile.close OFState.init
        = .ok { position := 0, buffer := [], iter := none, getLog := []
                resumeCount := 0, closed := true }
    ∧ ObjectFile.readable
        { position := 0, buffer := [], iter := none, getLog := []
          resumeCount := 0, closed := true } = false :=
  ⟨rfl, rfl⟩

/-- C6 (capability queries, amended): `readable()` returns the negation of
the closed flag — true at every point before `close()` and false afterwards
— while `seekable()` returns false at every point of the lifetime. -/
theorem c6_capability_queries (st : OFState) :
    ObjectFile.readable st = !st.closed ∧ ObjectFile.seekable st = false :=
  ⟨rfl, rfl⟩

/-- C9 (zero-length read): on any non-closed stream, `read(0)` returns the
empty byte string and leaves the state — position, buffer, iterator, and
the log of opened GETs — completely unchanged, so no network resource is
opened if none was open yet. -/
theorem c9_zero_length_read (cfg : OFConfig) (st : OFState)
    (hcl : st.closed = false) :
    ObjectFile.read cfg st (some 0) = (.ok [], st) :=
  read_zero_eq cfg st hcl

theorem c9_zero_length_read_witness :
    OFState.init.closed = false
    ∧ ObjectFile.read ⟨[0, 1, 2], 1, 5, []⟩ OFState.init (some 0)
        = (.ok [], OFState.init) :=
  ⟨rfl, c9_zero_length_read ⟨[0, 1, 2], 1, 5, []⟩ OFState.init rfl⟩

/-- C1 (content fidelity): for every object, every chunk size and every
sequence of read calls ending in an unbounded `read()`, on a failure-free
transport the concatenation of all returned byte strings is exactly the
object's bytes — the same bytes a single unbounded read of the whole
object returns. -/
theorem c1_content_fidelity (data : List Nat) (cs mr : Nat)
    (ns : List (Option Nat)) (hcs : cs ≠ 0) :
    joinAll (runReads ⟨data, cs, mr, []⟩ OFState.init (ns ++ [none])).1 = data
    ∧ (ObjectFile.read ⟨data, cs, mr, []⟩ OFState.init none).1 = .ok data := by
  have hginit : Good ⟨data, cs, mr, []⟩ OFState.init := by
    refine ⟨rfl, Nat.zero_le _, Nat.zero_le _, ?_⟩
    simp [IterGood, OFState.init]
  constructor
  · obtain ⟨hg1, hjoin1, hmono1⟩ :=
      runReads_good ⟨data, cs, mr, []⟩ hcs rfl ns OFState.init hginit
    obtain ⟨hr2, hp2, hg2⟩ :=
      read_good ⟨data, cs, mr, []⟩
        (runReads ⟨data, cs, mr, []⟩ OFState.init ns).2 none hcs rfl hg1
    rw [runReads_append, joinAll_append]
    have hip : OFState.init.position = 0 := rfl
    rw [hip, List.drop_zero, Nat.sub_zero] at hjoin1
    rw [hjoin1]
    simp only [runReads, joinAll, hr2, resultBytes]
    dsimp only [deliverTarget]
    have hlen : ((⟨data, cs, mr, []⟩ : OFConfig).data.drop
        (runReads ⟨data, cs, mr, []⟩ OFState.init ns).2.position).length
        = (⟨data, cs, mr, []⟩ : OFConfig).data.length
          - (runReads ⟨data, cs, mr, []⟩ OFState.init ns).2.position := by
      simp [List.length_drop]
    rw [← hlen, List.take_length]
    simp only [List.append_nil]
    exact List.take_append_drop _ _
  · obtain ⟨hr, _, _⟩ :=
      read_good ⟨data, cs, mr, []⟩ OFState.init none hcs rfl hginit
    rw [hr]
    simp [OFState.init, deliverTarget, List.take_length]

theorem c1_content_fidelity_witness :
    (2 : Nat) ≠ 0
    ∧ joinAll (runReads ⟨[5, 6, 7], 2, 0, []⟩ OFState.init
        ([some 2] ++ [none])).1 = [5, 6, 7] :=
  ⟨by decide, (c1_content_fidelity [5, 6, 7] 2 0 [some 2] (by decide)).1⟩

/-- C3 (resume exhaustion): a fresh stream starts with `resume_count = 0`;
the resume count never exceeds `max_resume` and never decreases over any
sequence of reads (the budget accumulates over the lifetime of the
instance, not per call); and once `resume_count` has reached `max_resume`,
a read that hits another transient failure surfaces the terminal
`resumeExhausted` error, opening no further GET (the GET log is unchanged)
and performing no silent retry. -/
theorem c3_resume_exhaustion (cfg : OFConfig) :
    OFState.init.resumeCount = 0
    ∧ (∀ (st : OFState) (reads : List (Option Nat)),
        st.resumeCount ≤ cfg.maxResume →
        (runReads cfg st reads).2.resumeCount ≤ cfg.maxResume)
    ∧ (∀ (st : OFState) (reads : List (Option Nat)),
        st.resumeCount ≤ (runReads cfg st reads).2.resumeCount)
    ∧ (∀ (st : OFState) (chunks : List (List Nat)) (f n : Nat),
        st.closed = false → st.iter = some ⟨chunks, some f⟩ →
        st.resumeCount = cfg.maxResume → 0 < n →
        f < pullsNeeded n st.buffer.length chunks →
        (ObjectFile.read cfg st (some n)).1 = .error .resumeExhausted
        ∧ (ObjectFile.read cfg st (some n)).2.getLog = st.getLog
        ∧ (ObjectFile.read cfg st (some n)).2.resumeCount = st.resumeCount
        ∧ (ObjectFile.read cfg st (some n)).2.position = st.position) := by
  refine ⟨rfl, ?_, ?_, ?_⟩
  · intro st reads h
    exact runReads_rc_le cfg reads st h
  · intro st reads
    exact runReads_rc_ge cfg reads st
  · intro st chunks f n hcl hit hrc hn hfail
    have hz : (some n : Option Nat) ≠ some 0 := by simp; omega
    rw [read_open_eq cfg st (some n) hcl hz, hit]
    dsimp only
    have hfo := fillOnce_bounded_fail n chunks f st.buffer hfail
    have hloop := resumeLoop_broke_stop cfg st.position (some n) st.buffer
      ⟨chunks, some f⟩ st.getLog st.resumeCount ⟨chunks.drop f, some 0⟩ hfo hrc
    unfold ObjectFile.readCore
    rw [hloop]
    exact ⟨rfl, rfl, rfl, rfl⟩

theorem c3_resume_exhaustion_witness :
    ({ position := 2, buffer := [], iter := some ⟨[[2], [3]], some 0⟩
       getLog := [0, 2], resumeCount := 1, closed := false } : OFState).resumeCount
      = (⟨[0, 1, 2, 3], 1, 1, []⟩ : OFConfig).maxResume
    ∧ (ObjectFile.read ⟨[0, 1, 2, 3], 1, 1, []⟩
        { position := 2, buffer := [], iter := some ⟨[[2], [3]], some 0⟩
          getLog := [0, 2], resumeCount := 1, closed := false } (some 1)).1
      = .error .resumeExhausted :=
  ⟨rfl,
   ((c3_resume_exhaustion ⟨[0, 1, 2, 3], 1, 1, []⟩).2.2.2
     { position := 2, buffer := [], iter := some ⟨[[2], [3]], some 0⟩
       getLog := [0, 2], resumeCount := 1, closed := false }
     [[2], [3]] 0 1 rfl rfl rfl (by decide) (by decide)).1⟩

/-- C2 (resume transparency): read `K` bytes, then read the rest unbounded,
against a transport whose first GET fails after `m` chunks (with the failure
falling inside the second call: `K ≤ m·cs < |data|`) and a resume budget of
at least 1.  The stream discards the broken iterator, increments the resume
count to 1, opens exactly one new GET — at offset `K`, the count of bytes
already delivered to the caller, not the larger count of bytes fetched into
the buffer — and the two calls together return every byte exactly once. -/
theorem c2_resume_transparency (data : List Nat) (cs m K mr : Nat)
    (hcs : cs ≠ 0) (hmr : 1 ≤ mr) (hK : 0 < K) (hKm : K ≤ m * cs)
    (hmlen : m * cs < data.length) :
    (runReads ⟨data, cs, mr, [some m]⟩ OFState.init [some K, none]).1
      = [data.take K, data.drop K]
    ∧ (runReads ⟨data, cs, mr, [some m]⟩ OFState.init [some K, none]).2.getLog
      = [0, K]
    ∧ (runReads ⟨data, cs, mr, [some m]⟩ OFState.init [some K, none]).2.resumeCount
      = 1
    ∧ (runReads ⟨data, cs, mr, [some m]⟩ OFState.init [some K, none]).2.position
      = data.length
    ∧ joinAll [data.take K, data.drop K] = data := by
  have hKlen : K ≤ data.length := by omega
  set cfg : OFConfig := ⟨data, cs, mr, [some m]⟩ with hcfg
  set p1 := pullsNeeded K 0 (chunksFrom cs data) with hp1def
  have hjoin0 : joinAll (chunksFrom cs data) = data := chunksFrom_joinAll cs data hcs
  have hp1m : p1 ≤ m := by
    apply pullsNeeded_le
    rw [chunksFrom_take_join cs m data hcs, List.length_take]
    omega
  have hbuf1 : joinAll ((chunksFrom cs data).take p1) = data.take (p1 * cs) :=
    chunksFrom_take_join cs p1 data hcs
  have hKsat : K ≤ 0 + (joinAll ((chunksFrom cs data).take p1)).length := by
    rw [hp1def]
    apply pullsNeeded_sat
    rw [hjoin0]
    omega
  have hbuf1len : K ≤ (data.take (p1 * cs)).length := by
    rw [← hbuf1]
    omega
  have hKp1cs : K ≤ p1 * cs := by
    rw [List.length_take] at hbuf1len
    omega
  -- read 1: open GET 0 and deliver K bytes
  have hz1 : (some K : Option Nat) ≠ some 0 := by simp; omega
  have h1 : ObjectFile.read cfg OFState.init (some K)
      = ObjectFile.readCore cfg OFState.init (some K) (openIter cfg 0 0) [0] := by
    rw [read_open_eq cfg OFState.init (some K) rfl hz1]
    rfl
  have hopen0 : openIter cfg 0 0 = ⟨chunksFrom cs data, some m⟩ := rfl
  have hfill1 := fillOnce_bounded_budget K (chunksFrom cs data) m []
    (by simp only [List.length_nil]; rw [hjoin0]; omega)
    (by simp only [List.length_nil]; rw [← hp1def]; exact hp1m)
  simp only [List.length_nil, List.nil_append, ← hp1def] at hfill1
  rw [hbuf1] at hfill1
  have hloop1 := resumeLoop_done cfg 0 (some K) [] ⟨chunksFrom cs data, some m⟩
    [0] 0 _ _ hfill1 (Nat.zero_le _)
  have hk1 : deliverCount (some K) (data.take (p1 * cs)) = K :=
    Nat.min_eq_left hbuf1len
  have hA : ObjectFile.read cfg OFState.init (some K)
      = (.ok ((data.take (p1 * cs)).take K),
         { position := K
           buffer := (data.take (p1 * cs)).drop K
           iter := some ⟨(chunksFrom cs data).drop p1, some (m - p1)⟩
           getLog := [0], resumeCount := 0, closed := false }) := by
    rw [h1]
    unfold ObjectFile.readCore
    dsimp only [OFState.init]
    rw [hopen0, hloop1]
    dsimp only
    rw [hk1]
    simp only [Nat.zero_add]
  have htakeK : (data.take (p1 * cs)).take K = data.take K := by
    rw [List.take_take]
    congr 1
    omega
  -- read 2: the first GET breaks, one resume GET at offset K finishes the job
  have hmchunks : m < (chunksFrom cs data).length :=
    chunksFrom_length_gt cs m data hcs hmlen
  have hfo2 := fillOnce_unbounded_fail ((chunksFrom cs data).drop p1) (m - p1)
    ((data.take (p1 * cs)).drop K)
    (by rw [List.length_drop]; omega)
  have hopenK : openIter cfg K 1 = ⟨chunksFrom cs (data.drop K), none⟩ := rfl
  have hjoinK : joinAll (chunksFrom cs (data.drop K)) = data.drop K :=
    chunksFrom_joinAll cs (data.drop K) hcs
  have hfill2 := fillOnce_unbounded_nofail (chunksFrom cs (data.drop K)) []
  rw [List.nil_append, hjoinK] at hfill2
  have hloop2b := resumeLoop_done cfg K none [] ⟨chunksFrom cs (data.drop K), none⟩
    [0, K] 1 _ _ hfill2 hmr
  have hloop2a := resumeLoop_broke_budget cfg K none ((data.take (p1 * cs)).drop K)
    ⟨(chunksFrom cs data).drop p1, some (m - p1)⟩ [0] 0
    ⟨((chunksFrom cs data).drop p1).drop (m - p1), some 0⟩ hfo2 hmr
  have hloop2 : resumeLoop cfg K none ((data.take (p1 * cs)).drop K)
      ⟨(chunksFrom cs data).drop p1, some (m - p1)⟩ [0] 0
      = .ok (data.drop K) ⟨[], none⟩ [0, K] 1 := by
    rw [hloop2a]
    have hlog : ([0] : List Nat).length = 1 := rfl
    have happ : ([0] : List Nat) ++ [K] = [0, K] := rfl
    rw [hlog, happ, hopenK]
    exact hloop2b
  have hk2 : deliverCount none (data.drop K) = data.length - K := by
    simp [deliverCount, List.length_drop]
  have hdropfull : (data.drop K).take (data.length - K) = data.drop K := by
    rw [← List.length_drop, List.take_length]
  have hB1 : (ObjectFile.read cfg
      { position := K
        buffer := (data.take (p1 * cs)).drop K
        iter := some ⟨(chunksFrom cs data).drop p1, some (m - p1)⟩
        getLog := [0], resumeCount := 0, closed := false } none)
      = (.ok (data.drop K),
         { position := K + (data.length - K)
           buffer := (data.drop K).drop (data.length - K)
           iter := some ⟨[], none⟩
           getLog := [0, K], resumeCount := 1, closed := false }) := by
    rw [read_open_eq cfg _ none rfl (by simp)]
    dsimp only
    unfold ObjectFile.readCore
    dsimp only
    rw [hloop2]
    dsimp only
    rw [hk2, hdropfull]
  -- assemble
  have hrun : runReads cfg OFState.init [some K, none]
      = (resultBytes (ObjectFile.read cfg OFState.init (some K)).1 ::
          resultBytes (ObjectFile.read cfg
            (ObjectFile.read cfg OFState.init (some K)).2 none).1 :: [],
         (ObjectFile.read cfg
            (ObjectFile.read cfg OFState.init (some K)).2 none).2) := by
    simp only [runReads]
  rw [hrun, hA]
  dsimp only
  rw [hB1]
  dsimp only [resultBytes]
  rw [htakeK]
  refine ⟨rfl, rfl, rfl, by omega, ?_⟩
  simp [joinAll]

theorem c2_resume_transparency_witness :
    (4 : Nat) ≠ 0 ∧ (1 : Nat) ≤ 1 ∧ (0 : Nat) < 5 ∧ (5 : Nat) ≤ 2 * 4
    ∧ 2 * 4 < ([0, 1, 2, 3, 4, 5, 6, 7, 8, 9, 10, 11] : List Nat).length
    ∧ (runReads ⟨[0, 1, 2, 3, 4, 5, 6, 7, 8, 9, 10, 11], 4, 1, [some 2]⟩
        OFState.init [some 5, none]).1
      = [[0, 1, 2, 3, 4], [5, 6, 7, 8, 9, 10, 11]]
    ∧ (runReads ⟨[0, 1, 2, 3, 4, 5, 6, 7, 8, 9, 10, 11], 4, 1, [some 2]⟩
        OFState.init [some 5, none]).2.getLog = [0, 5] :=
  ⟨by decide, by decide, by decide, by decide, by decide,
   ((c2_resume_transparency [0, 1, 2, 3, 4, 5, 6, 7, 8, 9, 10, 11] 4 2 5 1
      (by decide) (by decide) (by decide) (by decide) (by decide)).1).trans rfl,
   (c2_resume_transparency [0, 1, 2, 3, 4, 5, 6, 7, 8, 9, 10, 11] 4 2 5 1
      (by decide) (by decide) (by decide) (by decide) (by decide)).2.1⟩
